import Mathlib

/-!
Shallow embedding of the bitcoin key generator (src/main.rs): the
mnemonic, seed, master-key and fingerprint pipeline together with the three
text artifacts it renders.  External cryptographic collaborators (the
secure entropy source, the BIP39 encoder and PBKDF2 seed stretch, BIP32
master-key derivation, and the secp256k1 public-identity hash) are modelled
from the specification's collaborator contracts as fixed pure functions;
the formatting and orchestration logic is translated directly from the
source.
-/

set_option maxHeartbeats 1000000

namespace BitcoinKeygen

/-- Lowercase base sixteen digit characters, exactly the digits produced by
the source language's decimal and lowercase-hex integer formatting. -/
def nibbleChar : Nat → Char
  | 0 => '0'
  | 1 => '1'
  | 2 => '2'
  | 3 => '3'
  | 4 => '4'
  | 5 => '5'
  | 6 => '6'
  | 7 => '7'
  | 8 => '8'
  | 9 => '9'
  | 10 => 'a'
  | 11 => 'b'
  | 12 => 'c'
  | 13 => 'd'
  | 14 => 'e'
  | 15 => 'f'
  | _ => '0'

/-- Standard decimal rendering of a natural number, most significant digit
first, as produced by the source language's integer display formatting. -/
def natDecimal (n : Nat) : String :=
  if n < 10 then ⟨[nibbleChar n]⟩
  else natDecimal (n / 10) ++ ⟨[nibbleChar (n % 10)]⟩
termination_by n
decreasing_by exact Nat.div_lt_self (by omega) (by omega)

/-- Right alignment to a minimum width with spaces, the numeric alignment
behaviour of a width annotation in the source's format strings. -/
def padLeft (s : String) (w : Nat) : String :=
  (⟨List.replicate (w - s.length) ' '⟩ : String) ++ s

/-- Left alignment to a minimum width with spaces, the string alignment
behaviour of a width annotation in the source's format strings. -/
def padRight (s : String) (w : Nat) : String :=
  s ++ (⟨List.replicate (w - s.length) ' '⟩ : String)

/-- Rendering of a word number with minimum width two, right aligned. -/
def fmtNum2 (n : Nat) : String := padLeft (natDecimal n) 2

/-- Fixed-width lowercase hex rendering of a 32-bit value, eight nibbles
from most significant to least significant: the embedding of the
zero-padded width-eight lowercase hex format used for the fingerprint. -/
def hex8 (n : Nat) : String :=
  ⟨[nibbleChar (n / 268435456 % 16), nibbleChar (n / 16777216 % 16),
    nibbleChar (n / 1048576 % 16), nibbleChar (n / 65536 % 16),
    nibbleChar (n / 4096 % 16), nibbleChar (n / 256 % 16),
    nibbleChar (n / 16 % 16), nibbleChar (n % 16)]⟩

/-- Two lowercase hex characters for one byte, most significant nibble
first. -/
def hexByte (b : Nat) : String := ⟨[nibbleChar (b / 16), nibbleChar (b % 16)]⟩

/-- Lowercase hexadecimal character test: a decimal digit or one of the
letters a to f. -/
def isLowerHexDigit (c : Char) : Bool :=
  (48 ≤ c.toNat && c.toNat ≤ 57) || (97 ≤ c.toNat && c.toNat ≤ 102)

/-- A BIP39 mnemonic as the specification's data model describes it: an
ordered sequence of exactly 24 words, every word alphabetic and
non-empty. -/
structure Mnemonic where
  words : List String
  words_count : words.length = 24
  words_alpha : ∀ w ∈ words, w.data ≠ [] ∧ ∀ c ∈ w.data, c.isAlpha = true

/-- The network parameter set of the key-derivation library. -/
inductive Network where
  | bitcoin
  | testnet
  | signet
  | regtest

/-- An extended private key as the embedding models it: the network it is
scoped to, the private key bytes and the chain code bytes. -/
structure Xpriv where
  network : Network
  private_key : List Nat
  chain_code : List Nat

/-- A 32-bit mixing step used by the stand-in models of the external hash
based primitives. -/
def mix (acc : Nat) (b : Nat) : Nat := (acc * 131 + b) % 4294967296

/-- Modelled from the spec: the secp256k1 public-identity hash over the
master key's public component is computed by an external, well-audited
library; only its determinism matters here, so it is modelled as a fixed
pure 32-bit digest of the key material. -/
def xprivIdentityHash (key : Xpriv) : Nat :=
  ((key.private_key ++ key.chain_code).foldl mix 2166136261) % 4294967296

/-- Modelled from the spec: the four fingerprint bytes exposed by the
key-derivation library, the first four bytes of the public-identity hash,
most significant byte first. -/
def fingerprint (key : Xpriv) : List Nat :=
  [xprivIdentityHash key / 16777216 % 256,
   xprivIdentityHash key / 65536 % 256,
   xprivIdentityHash key / 256 % 256,
   xprivIdentityHash key % 256]

/-- Embedding of get_hardware_wallet_fingerprint: assemble a 32-bit value
from the four fingerprint bytes, most significant byte first, and render
it as zero-padded width-eight lowercase hex. -/
def get_hardware_wallet_fingerprint (key : Xpriv) : String :=
  hex8 ((fingerprint key).getD 0 0 * 16777216 + (fingerprint key).getD 1 0 * 65536
    + (fingerprint key).getD 2 0 * 256 + (fingerprint key).getD 3 0)

/-- Letter characters used by the modelled word encoding. -/
def azChar : Nat → Char
  | 0 => 'a'
  | 1 => 'b'
  | 2 => 'c'
  | 3 => 'd'
  | 4 => 'e'
  | 5 => 'f'
  | 6 => 'g'
  | 7 => 'h'
  | 8 => 'i'
  | 9 => 'j'
  | 10 => 'k'
  | 11 => 'l'
  | 12 => 'm'
  | 13 => 'n'
  | 14 => 'o'
  | 15 => 'p'
  | 16 => 'q'
  | 17 => 'r'
  | 18 => 's'
  | 19 => 't'
  | 20 => 'u'
  | 21 => 'v'
  | 22 => 'w'
  | 23 => 'x'
  | 24 => 'y'
  | 25 => 'z'
  | _ => 'a'

/-- Modelled from the spec: a list-valid word for one 11-bit group; the
external 2048-entry word list is not part of this repository, so each
group value is rendered as three letters, which keeps every word
alphabetic and non-empty as the data model requires. -/
def letterWord (v : Nat) : String :=
  ⟨[azChar (v % 26), azChar (v / 26 % 26), azChar (v / 676 % 26)]⟩

/-- Modelled from the spec: the BIP39 checksum bits are derived from the
entropy by an external hash; a fixed deterministic byte of the entropy
stands in for it. -/
def entropyChecksum (entropy : List Nat) : Nat :=
  (entropy.foldl (fun a b => a + b) 0) % 256

/-- The entropy bytes read as one big number, most significant byte
first. -/
def entropyNum (entropy : List Nat) : Nat :=
  entropy.foldl (fun a b => a * 256 + b % 256) 0

/-- The i-th 11-bit group of the entropy followed by the checksum byte. -/
def wordIndex (entropy : List Nat) (i : Nat) : Nat :=
  (entropyNum entropy * 256 + entropyChecksum entropy) / 2 ^ (11 * (23 - i)) % 2048

/-- Modelled from the spec: the 24 words the external encoder derives from
256 bits of entropy, one word per 11-bit group. -/
def encodeWords (entropy : List Nat) : List String :=
  (List.range 24).map (fun i => letterWord (wordIndex entropy i))

/-- The mnemonic value built from well-formed entropy. -/
def mkMnemonic (entropy : List Nat) : Mnemonic :=
  ⟨encodeWords entropy,
   by simp [encodeWords],
   by
     intro w hw
     simp only [encodeWords, List.mem_map, List.mem_range] at hw
     obtain ⟨i, _, rfl⟩ := hw
     have halpha : ∀ d : Nat, (azChar d).isAlpha = true := by
       intro d
       unfold azChar
       split <;> decide
     refine ⟨by simp [letterWord], ?_⟩
     intro c hc
     have hc' : c = azChar (wordIndex entropy i % 26)
         ∨ c = azChar (wordIndex entropy i / 26 % 26)
         ∨ c = azChar (wordIndex entropy i / 676 % 26) := by
       simpa [letterWord] using hc
     rcases hc' with rfl | rfl | rfl
     · exact halpha _
     · exact halpha _
     · exact halpha _⟩

/-- Modelled from the spec: the external encoder maps entropy to a
mnemonic and rejects entropy whose size is not a valid BIP39 bit count;
the specification's data model fixes the mnemonic at 24 words, so the
32-byte case is the one modelled as succeeding. -/
def fromEntropy (entropy : List Nat) : Except String Mnemonic :=
  if entropy.length = 32 then .ok (mkMnemonic entropy)
  else .error ("bad entropy bit count")

/-- Embedding of generate_mnemonic: the 32 random bytes supplied by the
external entropy source are a parameter; the body encodes them. -/
def generate_mnemonic (entropy : List Nat) : Except String Mnemonic :=
  fromEntropy entropy

/-- Space-joined mnemonic sentence. -/
def joinSpace : List String → String
  | [] => ""
  | [w] => w
  | w :: ws => w ++ " " ++ joinSpace ws

/-- Modelled from the spec: the external PBKDF2 key stretch mapping a
mnemonic sentence and passphrase to a 64-byte seed; only determinism and
the output length matter here, so a fixed pure 64-byte digest stands in
for it. -/
def to_seed (m : Mnemonic) (passphrase : String) : List Nat :=
  (List.range 64).map (fun i =>
    ((joinSpace m.words ++ "#" ++ passphrase).data.foldl
      (fun a c => mix a c.toNat) (i + 7)) % 256)

/-- Embedding of generate_seed: delegate to the seed stretch. -/
def generate_seed (m : Mnemonic) (passphrase : String) : List Nat :=
  to_seed m passphrase

/-- Modelled from the spec: master-key derivation of the external library;
it rejects a malformed seed and otherwise deterministically builds the
extended private key from the 64 seed bytes. -/
def derive_master_key (seed : List Nat) (network : Network) : Except String Xpriv :=
  if seed.length = 64 then .ok ⟨network, seed.take 32, seed.drop 32⟩
  else .error ("invalid seed length")

/-- One cell of the seed-word grid: the 1-based word number right aligned
to width two, a period and a space, and the word left aligned to width
twelve, exactly the grid cell format string of the source. -/
def gridCell (wordNum : Nat) (w : String) : String :=
  fmtNum2 wordNum ++ ". " ++ padRight w 12

/-- Embedding of the seed-word grid loop of create_printable_output: each
word is rendered as a cell, followed by a newline after every fourth word
and by two spaces otherwise. -/
def gridLoop : List String → Nat → String
  | [], _ => ""
  | w :: ws, i =>
    gridCell (i + 1) w ++ (if (i + 1) % 4 = 0 then "\n" else "  ") ++ gridLoop ws (i + 1)

/-- Embedding of the seed-word grid section of create_printable_output:
the loop over the words followed by the fixup that terminates the last
line when the word count is not a multiple of four. -/
def gridSection (words : List String) : String :=
  gridLoop words 0 ++ (if words.length % 4 ≠ 0 then "\n" else "")

/-- Stated from the claim: the grid as rows of a 4-column table.  Every
full row carries four cells separated by two spaces and ends with a line
break; a short final row carries its cells, each followed by the
two-space separator, and is also terminated by a line break. -/
def gridRowsAux : List String → Nat → String
  | [], _ => ""
  | [a], i => gridCell (i + 1) a ++ "  " ++ "\n"
  | [a, b], i =>
    gridCell (i + 1) a ++ "  " ++ gridCell (i + 2) b ++ "  " ++ "\n"
  | [a, b, c], i =>
    gridCell (i + 1) a ++ "  " ++ gridCell (i + 2) b ++ "  "
      ++ gridCell (i + 3) c ++ "  " ++ "\n"
  | a :: b :: c :: d :: rest, i =>
    gridCell (i + 1) a ++ "  " ++ gridCell (i + 2) b ++ "  "
      ++ gridCell (i + 3) c ++ "  " ++ gridCell (i + 4) d ++ "\n"
      ++ gridRowsAux rest (i + 4)

/-- Stated from the claim: the whole grid, rows starting at word one. -/
def gridRows (words : List String) : String := gridRowsAux words 0

/-- Embedding of the numbered single-column word loop used both by
create_simple_word_list and by the single column section of the printable
report: one line per word, the 1-based index right aligned to width two,
a period and a space, the word, and a newline. -/
def simpleListLoop : List String → Nat → String
  | [], _ => ""
  | w :: ws, i => fmtNum2 (i + 1) ++ ". " ++ w ++ "\n" ++ simpleListLoop ws (i + 1)

/-- Embedding of create_simple_word_list. -/
def create_simple_word_list (m : Mnemonic) : String :=
  simpleListLoop m.words 0

/-- Stated from the claim: the expected lines of the simple word list,
line i consisting of the index i right aligned to two digits, a period
and a space, and the i-th word, and nothing else. -/
def simpleLines : List String → Nat → List String
  | [], _ => []
  | w :: ws, i => (fmtNum2 (i + 1) ++ ". " ++ w) :: simpleLines ws (i + 1)

/-- Embedding of the newline join used for the hardware-wallet import
file: the words joined by single newline characters, with no trailing
newline. -/
def joinNl : List String → String
  | [] => ""
  | [w] => w
  | w :: ws => w ++ "\n" ++ joinNl ws

/-- The import-list artifact written to seed_words_for_coldcard.txt. -/
def renderImportList (m : Mnemonic) : String := joinNl m.words

/-- Splitting a character list at every newline character; the result is
never empty, and a trailing newline contributes a final empty piece. -/
def splitNl : List Char → List (List Char)
  | [] => [[]]
  | c :: cs =>
    if c = '\n' then [] :: splitNl cs
    else
      match splitNl cs with
      | [] => [[c]]
      | l :: ls => (c :: l) :: ls

/-- The lines of a text, in the sense of the line iterator used by the
source's tests: pieces between newline characters, where a trailing
newline terminates the last line rather than opening an empty one. -/
def linesOf (s : String) : List String :=
  let parts := splitNl s.data
  (if parts.getLast? = some [] then parts.dropLast else parts).map
    (fun l => (⟨l⟩ : String))

/-- The heavy border line of the printable report: 63 double-rule
characters and a newline, written as a replicate so the value matches the
source literal exactly. -/
def borderH : String := (⟨List.replicate 63 '═'⟩ : String) ++ "\n"

/-- The thin border line of the printable report: 61 light-rule
characters and a newline. -/
def borderT : String := (⟨List.replicate 61 '─'⟩ : String) ++ "\n"

/-- Header block of the printable report. -/
def printHeader : String :=
  borderH ++ "           BITCOIN SEED PHRASE - METAL PLATE BACKUP\n" ++ borderH ++ "\n"

/-- Security warning block of the printable report. -/
def printWarning : String :=
  "⚠️  SECURITY WARNING ⚠️\n" ++ borderT
    ++ "This seed phrase provides full access to your Bitcoin wallet.\n"
    ++ "Store this metal plate in a secure, fireproof location.\n"
    ++ "Never share this seed phrase with anyone.\n"
    ++ borderT ++ "\n"

/-- Seed-word section heading of the printable report. -/
def printSeedWordsHeader : String :=
  "SEED WORDS (Punch these in order):\n" ++ borderH ++ "\n"

/-- Verification checklist block of the printable report, including the
blank line and border that precede it. -/
def printChecklist : String :=
  "\n" ++ borderH ++ "VERIFICATION CHECKLIST:\n" ++ borderT
    ++ "□ All 24 words are clearly readable\n"
    ++ "□ Words are in correct numerical order (1-24)\n"
    ++ "□ Fingerprint matches hardware wallet device\n"
    ++ "□ Metal plate is stored in secure location\n"
    ++ "□ Backup copy exists in separate location\n"
    ++ borderH ++ "\n"

/-- Heading of the single column section of the printable report. -/
def printSingleColumnHeader : String :=
  "\n\nSINGLE COLUMN FORMAT (Alternative punching reference):\n" ++ borderH

/-- Border closing the single column section of the printable report. -/
def printSingleColumnFooter : String := borderH ++ "\n"

/-- First half of the hardware-wallet import instructions, up to the
fingerprint restatement. -/
def printInstructionsA : String :=
  "HARDWARE WALLET IMPORT INSTRUCTIONS:\n" ++ borderT
    ++ "This seed phrase is compatible with all BIP39 hardware wallets\n"
    ++ "(Coldcard, Trezor, Ledger, BitBox, etc.).\n\n"
    ++ "Example - Coldcard:\n"
    ++ "1. Power on your Coldcard device\n"
    ++ "2. Navigate to: Advanced > Danger Zone > Seed Functions > Import Existing\n"
    ++ "3. Select '24 words' when prompted\n"
    ++ "4. Enter the 24 words in order (1-24)\n"

/-- Second half of the hardware-wallet import instructions. -/
def printInstructionsB : String :=
  "6. Set a secure PIN code\n"
    ++ "7. Test with a small transaction before storing large amounts\n\n"
    ++ "For other hardware wallets, follow their specific recovery/import process.\n"
    ++ borderT ++ "\n"

/-- Footer of the printable report. -/
def printFooter : String :=
  "Generated by bitcoin-keygen (air-gapped system)\n" ++ borderH

/-- Embedding of create_printable_output.  The generation timestamp the
source reads from the system clock is a parameter. -/
def create_printable_output (m : Mnemonic) (fingerprint label timestamp : String) : String :=
  printHeader
    ++ ("Label: " ++ label ++ "\n")
    ++ ("Generated: " ++ timestamp ++ "\n")
    ++ ("Fingerprint: " ++ fingerprint ++ "\n")
    ++ "Word Count: 24 words (256 bits entropy)\n"
    ++ "Network: Bitcoin Mainnet\n\n"
    ++ printWarning
    ++ printSeedWordsHeader
    ++ gridSection m.words
    ++ printChecklist
    ++ printSingleColumnHeader
    ++ simpleListLoop m.words 0
    ++ printSingleColumnFooter
    ++ printInstructionsA
    ++ ("5. Verify the fingerprint matches: " ++ fingerprint ++ "\n")
    ++ printInstructionsB
    ++ printFooter

/-- The three artifact texts exactly as the orchestrator builds them for
writing: the printable report, the simple numbered word list, and the
bare newline-joined import list. -/
def writeArtifacts (m : Mnemonic) (fingerprint label timestamp : String) :
    String × String × String :=
  (create_printable_output m fingerprint label timestamp,
   create_simple_word_list m,
   renderImportList m)

/-- Everything a run of the orchestrator produces. -/
structure RunResult where
  mnemonic : Mnemonic
  seed : List Nat
  master_key : Xpriv
  fingerprint : String
  label : String
  printable : String
  simpleList : String
  coldcardList : String

/-- Embedding of the orchestrated run in main: entropy, the optional label
argument and the clock reading are parameters; the body follows the
pipeline of the source, deriving the seed from the mnemonic with the
empty passphrase. -/
def mainRun (entropy : List Nat) (labelArg : Option String) (timestamp : String) :
    Except String RunResult :=
  match fromEntropy entropy with
  | .error e => .error e
  | .ok mnemonic =>
    match derive_master_key (generate_seed mnemonic "") Network.bitcoin with
    | .error e => .error e
    | .ok master_key =>
      .ok
        { mnemonic := mnemonic
          seed := generate_seed mnemonic ""
          master_key := master_key
          fingerprint := get_hardware_wallet_fingerprint master_key
          label := labelArg.getD ("Bitcoin Wallet")
          printable := create_printable_output mnemonic
            (get_hardware_wallet_fingerprint master_key)
            (labelArg.getD ("Bitcoin Wallet")) timestamp
          simpleList := create_simple_word_list mnemonic
          coldcardList := renderImportList mnemonic }

/-- Success test for the encoder's result. -/
def exceptIsOk {ε α : Type} : Except ε α → Bool
  | .ok _ => true
  | .error _ => false

/-- Holds when a run's seed is the one derived from the run's own mnemonic
with the empty passphrase. -/
def seedUsesEmptyPassphrase : Except String RunResult → Prop
  | .ok r => r.seed = generate_seed r.mnemonic ""
  | .error _ => True

/-- Occurrence of a character sequence inside another. -/
def occursIn (sub l : List Char) : Prop :=
  ∃ s t, l = s ++ (sub ++ t)

/-- A concrete 24-word mnemonic used by the witness theorems. -/
def M0 : Mnemonic :=
  ⟨List.replicate 24 ("abandon"), by decide, by decide⟩

/-- A concrete master key used by the witness theorems. -/
def K0 : Xpriv :=
  ⟨Network.bitcoin, [11, 22, 33], [44, 55]⟩

/-! Basic facts about the string primitives. -/

theorem data_append (a b : String) : (a ++ b).data = a.data ++ b.data := rfl

theorem data_empty : ("" : String).data = [] := rfl

theorem str_ext {a b : String} (h : a.data = b.data) : a = b := by
  cases a
  cases b
  exact congrArg String.mk h

theorem str_mk_data (s : String) : (⟨s.data⟩ : String) = s := rfl

theorem nibbleChar_digit (d : Nat) (hd : d < 10) :
    48 ≤ (nibbleChar d).toNat ∧ (nibbleChar d).toNat ≤ 57 := by
  interval_cases d <;> decide

theorem nibbleChar_lowerHex (d : Nat) : isLowerHexDigit (nibbleChar d) = true := by
  unfold nibbleChar
  split <;> decide

theorem natDecimal_digits (n : Nat) :
    ∀ c ∈ (natDecimal n).data, 48 ≤ c.toNat ∧ c.toNat ≤ 57 := by
  induction n using Nat.strong_induction_on with
  | _ n ih =>
    rw [natDecimal]
    by_cases h : n < 10
    · simp only [if_pos h]
      intro c hc
      have hc' : c = nibbleChar n := by simpa using hc
      subst hc'
      exact nibbleChar_digit n h
    · simp only [if_neg h, data_append]
      intro c hc
      rcases List.mem_append.mp hc with hc' | hc'
      · exact ih (n / 10) (Nat.div_lt_self (by omega) (by omega)) c hc'
      · have hc'' : c = nibbleChar (n % 10) := by simpa using hc'
        subst hc''
        exact nibbleChar_digit _ (Nat.mod_lt _ (by omega))

theorem natDecimal_no_newline (n : Nat) : '\n' ∉ (natDecimal n).data := by
  intro h
  exact absurd (natDecimal_digits n '\n' h) (by decide)

theorem fmtNum2_no_newline (n : Nat) : '\n' ∉ (fmtNum2 n).data := by
  intro h
  simp only [fmtNum2, padLeft, data_append] at h
  rcases List.mem_append.mp h with h' | h'
  · exact absurd (List.eq_of_mem_replicate h') (by decide)
  · exact natDecimal_no_newline n h'

/-! Facts about splitting on newline characters. -/

theorem splitNl_ne_nil (l : List Char) : splitNl l ≠ [] := by
  induction l with
  | nil => simp [splitNl]
  | cons c cs ih =>
    simp only [splitNl]
    split
    · simp
    · split
      · simp
      · simp

theorem splitNl_push (l cs : List Char) (h : '\n' ∉ l) :
    splitNl (l ++ '\n' :: cs) = l :: splitNl cs := by
  induction l with
  | nil => simp [splitNl]
  | cons a l ih =>
    have ha : ¬a = '\n' := fun e => h (by simp [e])
    have h' : '\n' ∉ l := fun e => h (List.mem_cons_of_mem _ e)
    rw [List.cons_append]
    simp only [splitNl, if_neg ha, ih h']

theorem splitNl_no_newline (l : List Char) (h : '\n' ∉ l) : splitNl l = [l] := by
  induction l with
  | nil => rfl
  | cons a l ih =>
    have ha : ¬a = '\n' := fun e => h (by simp [e])
    have h' : '\n' ∉ l := fun e => h (List.mem_cons_of_mem _ e)
    simp only [splitNl, if_neg ha, ih h']

theorem lastOfAppend {α : Type} :
    ∀ (l₁ l₂ : List α), l₂ ≠ [] → (l₁ ++ l₂).getLast? = l₂.getLast?
  | [], _, _ => by simp
  | a :: l₁, l₂, h => by
    rw [List.cons_append]
    have hne : l₁ ++ l₂ ≠ [] := by
      intro e
      rcases List.append_eq_nil.mp e with ⟨-, e₂⟩
      exact h e₂
    cases hl : l₁ ++ l₂ with
    | nil => exact absurd hl hne
    | cons x xs =>
      rw [List.getLast?_cons_cons, ← hl, lastOfAppend l₁ l₂ h]

theorem lastConcat {α : Type} (l : List α) (a : α) : (l ++ [a]).getLast? = some a := by
  rw [lastOfAppend l [a] (by simp)]
  rfl

theorem dropLastConcat {α : Type} :
    ∀ (l : List α) (a : α), (l ++ [a]).dropLast = l
  | [], _ => rfl
  | [x], _ => rfl
  | x :: y :: l, a => by
    have ih := dropLastConcat (y :: l) a
    rw [List.cons_append]
    rw [show ((y :: l) ++ [a]) = y :: (l ++ [a]) from rfl] at ih ⊢
    rw [List.dropLast_cons₂, ih]

/-! Facts about the mnemonic invariants and the two word-list artifacts. -/

theorem mnemonic_no_newline (m : Mnemonic) : ∀ w ∈ m.words, '\n' ∉ w.data := by
  intro w hw hc
  exact absurd ((m.words_alpha w hw).2 '\n' hc) (by decide)

theorem mnemonic_words_ne_nil (m : Mnemonic) : ∀ w ∈ m.words, w.data ≠ [] :=
  fun w hw => (m.words_alpha w hw).1

theorem mnemonic_words_not_nil (m : Mnemonic) : m.words ≠ [] := by
  intro e
  have h := m.words_count
  rw [e] at h
  simp at h

theorem simpleLine_no_newline (i : Nat) (w : String) (hw : '\n' ∉ w.data) :
    '\n' ∉ (fmtNum2 i ++ ". " ++ w).data := by
  intro h
  simp only [data_append] at h
  rcases List.mem_append.mp h with h' | h'
  · rcases List.mem_append.mp h' with h'' | h''
    · exact fmtNum2_no_newline i h''
    · exact absurd h'' (by decide)
  · exact hw h'

theorem simpleLines_length : ∀ (ws : List String) (i : Nat), (simpleLines ws i).length = ws.length
  | [], _ => rfl
  | _ :: ws, i => by
    simp only [simpleLines, List.length_cons]
    rw [simpleLines_length ws (i + 1)]

theorem splitNl_simpleListLoop :
    ∀ (ws : List String) (i : Nat), (∀ w ∈ ws, '\n' ∉ w.data) →
      splitNl (simpleListLoop ws i).data = (simpleLines ws i).map String.data ++ [[]]
  | [], i, _ => rfl
  | w :: ws, i, h => by
    have hw : '\n' ∉ w.data := h w (by simp)
    have hrest : ∀ x ∈ ws, '\n' ∉ x.data := fun x hx => h x (List.mem_cons_of_mem _ hx)
    have hline := simpleLine_no_newline (i + 1) w hw
    have hshape : (simpleListLoop (w :: ws) i).data
        = (fmtNum2 (i + 1) ++ ". " ++ w).data ++ '\n' :: (simpleListLoop ws (i + 1)).data := by
      simp [simpleListLoop, data_append, List.append_assoc]
    rw [hshape, splitNl_push _ _ hline, splitNl_simpleListLoop ws (i + 1) hrest]
    rfl

theorem splitNl_joinNl :
    ∀ (ws : List String), ws ≠ [] → (∀ w ∈ ws, '\n' ∉ w.data) →
      splitNl (joinNl ws).data = ws.map String.data
  | [], h, _ => absurd rfl h
  | [w], _, h => by
    rw [show joinNl [w] = w from rfl, splitNl_no_newline w.data (h w (by simp))]
    rfl
  | w :: v :: ws, _, h => by
    have hw : '\n' ∉ w.data := h w (by simp)
    have hrest : ∀ x ∈ v :: ws, '\n' ∉ x.data := fun x hx => h x (List.mem_cons_of_mem _ hx)
    have hshape : (joinNl (w :: v :: ws)).data
        = w.data ++ '\n' :: (joinNl (v :: ws)).data := by
      rw [show joinNl (w :: v :: ws) = w ++ "\n" ++ joinNl (v :: ws) from rfl]
      simp [data_append, List.append_assoc]
    rw [hshape, splitNl_push _ _ hw, splitNl_joinNl (v :: ws) (by simp) hrest]
    rfl

theorem map_mk_data : ∀ (ls : List String), (ls.map String.data).map (fun l => (⟨l⟩ : String)) = ls
  | [] => rfl
  | a :: ls => by
    simp only [List.map_cons]
    rw [map_mk_data ls]

theorem mapData_last_ne_nil :
    ∀ (L : List String), (∀ w ∈ L, w.data ≠ []) → (L.map String.data).getLast? = some [] → False
  | [], _, h => by simp at h
  | [a], hw, h => by
    simp only [List.map_cons, List.map_nil] at h
    have ha : a.data = [] := by
      have h' : some a.data = some ([] : List Char) := h
      exact Option.some.inj h'
    exact hw a (by simp) ha
  | a :: b :: L, hw, h => by
    have hrest : ∀ w ∈ b :: L, w.data ≠ [] := fun w hx => hw w (List.mem_cons_of_mem _ hx)
    apply mapData_last_ne_nil (b :: L) hrest
    rw [List.map_cons, List.map_cons, List.getLast?_cons_cons] at h
    rw [List.map_cons]
    exact h

theorem linesOf_of_terminated (s : String) (L : List String)
    (h : splitNl s.data = L.map String.data ++ [[]]) : linesOf s = L := by
  have hmain : linesOf s
      = (if (splitNl s.data).getLast? = some [] then (splitNl s.data).dropLast
          else splitNl s.data).map (fun l => (⟨l⟩ : String)) := rfl
  rw [hmain, h, lastConcat, if_pos rfl, dropLastConcat]
  exact map_mk_data L

theorem linesOf_of_unterminated (s : String) (L : List String)
    (hw : ∀ w ∈ L, w.data ≠ []) (h : splitNl s.data = L.map String.data) :
    linesOf s = L := by
  have hmain : linesOf s
      = (if (splitNl s.data).getLast? = some [] then (splitNl s.data).dropLast
          else splitNl s.data).map (fun l => (⟨l⟩ : String)) := rfl
  have hcond : ¬((L.map String.data).getLast? = some []) := fun e => mapData_last_ne_nil L hw e
  rw [hmain, h, if_neg hcond]
  exact map_mk_data L

theorem simpleListLoop_count :
    ∀ (ws : List String) (i : Nat), (∀ w ∈ ws, '\n' ∉ w.data) →
      (simpleListLoop ws i).data.count '\n' = ws.length
  | [], _, _ => rfl
  | w :: ws, i, h => by
    have hw : '\n' ∉ w.data := h w (by simp)
    have hrest : ∀ x ∈ ws, '\n' ∉ x.data := fun x hx => h x (List.mem_cons_of_mem _ hx)
    have hline := simpleLine_no_newline (i + 1) w hw
    have hshape : (simpleListLoop (w :: ws) i).data
        = (fmtNum2 (i + 1) ++ ". " ++ w).data ++ '\n' :: (simpleListLoop ws (i + 1)).data := by
      simp [simpleListLoop, data_append, List.append_assoc]
    rw [hshape, List.count_append, List.count_cons]
    rw [List.count_eq_zero.mpr hline, simpleListLoop_count ws (i + 1) hrest]
    simp [List.length_cons]

theorem joinNl_count :
    ∀ (ws : List String), ws ≠ [] → (∀ w ∈ ws, '\n' ∉ w.data) →
      (joinNl ws).data.count '\n' = ws.length - 1
  | [], h, _ => absurd rfl h
  | [w], _, h => by
    rw [show joinNl [w] = w from rfl, List.count_eq_zero.mpr (h w (by simp))]
    rfl
  | w :: v :: ws, _, h => by
    have hw : '\n' ∉ w.data := h w (by simp)
    have hrest : ∀ x ∈ v :: ws, '\n' ∉ x.data := fun x hx => h x (List.mem_cons_of_mem _ hx)
    have hshape : (joinNl (w :: v :: ws)).data
        = w.data ++ '\n' :: (joinNl (v :: ws)).data := by
      rw [show joinNl (w :: v :: ws) = w ++ "\n" ++ joinNl (v :: ws) from rfl]
      simp [data_append, List.append_assoc]
    rw [hshape, List.count_append, List.count_cons]
    rw [List.count_eq_zero.mpr hw, joinNl_count (v :: ws) (by simp) hrest]
    simp [List.length_cons]

theorem simpleListLoop_last :
    ∀ (ws : List String) (i : Nat), ws ≠ [] →
      (simpleListLoop ws i).data.getLast? = some '\n'
  | [], _, h => absurd rfl h
  | [w], i, _ => by
    have hshape : (simpleListLoop [w] i).data
        = (fmtNum2 (i + 1) ++ ". " ++ w).data ++ ['\n'] := by
      simp [simpleListLoop, data_append]
    rw [hshape, lastConcat]
  | w :: v :: ws, i, _ => by
    have ih := simpleListLoop_last (v :: ws) (i + 1) (by simp)
    have hne : (simpleListLoop (v :: ws) (i + 1)).data ≠ [] := by
      intro e
      rw [e] at ih
      simp at ih
    rw [show simpleListLoop (w :: v :: ws) i
        = fmtNum2 (i + 1) ++ ". " ++ w ++ "\n" ++ simpleListLoop (v :: ws) (i + 1) from rfl]
    rw [data_append, lastOfAppend _ _ hne]
    exact ih

theorem joinNl_last :
    ∀ (ws : List String), ws ≠ [] →
      (∀ w ∈ ws, w.data ≠ [] ∧ ∀ c ∈ w.data, c.isAlpha = true) →
      ∃ c, (joinNl ws).data.getLast? = some c ∧ c.isAlpha = true
  | [], h, _ => absurd rfl h
  | [w], _, h => by
    have hne : w.data ≠ [] := (h w (by simp)).1
    refine ⟨w.data.getLast hne, ?_, ?_⟩
    · rw [show joinNl [w] = w from rfl]
      exact List.getLast?_eq_getLast w.data hne
    · exact (h w (by simp)).2 _ (List.getLast_mem hne)
  | w :: v :: ws, _, h => by
    have hrest : ∀ x ∈ v :: ws, x.data ≠ [] ∧ ∀ c ∈ x.data, c.isAlpha = true :=
      fun x hx => h x (List.mem_cons_of_mem _ hx)
    obtain ⟨c, hc, hca⟩ := joinNl_last (v :: ws) (by simp) hrest
    have hne : (joinNl (v :: ws)).data ≠ [] := by
      intro e
      rw [e] at hc
      simp at hc
    refine ⟨c, ?_, hca⟩
    rw [show joinNl (w :: v :: ws) = w ++ "\n" ++ joinNl (v :: ws) from rfl]
    rw [data_append, lastOfAppend _ _ hne]
    exact hc

/-- Claim C4: for every 24-word mnemonic, create_simple_word_list produces
exactly 24 lines, line i consisting of the index i right aligned to two
digits, a period and a space, and the i-th word, in order, and nothing
else. -/
theorem simple_word_list_lines (m : Mnemonic) :
    linesOf (create_simple_word_list m) = simpleLines m.words 0
      ∧ (linesOf (create_simple_word_list m)).length = 24 := by
  have h1 : linesOf (create_simple_word_list m) = simpleLines m.words 0 := by
    apply linesOf_of_terminated
    exact splitNl_simpleListLoop m.words 0 (mnemonic_no_newline m)
  refine ⟨h1, ?_⟩
  rw [h1, simpleLines_length, m.words_count]

/-- Claim C1: the import-list artifact is the mnemonic's words joined by
newline characters only; splitting it on newlines yields exactly 24
non-empty entries equal to the mnemonic's words in their original
order. -/
theorem import_list_lines (m : Mnemonic) :
    linesOf (renderImportList m) = m.words
      ∧ (linesOf (renderImportList m)).length = 24
      ∧ "" ∉ linesOf (renderImportList m) := by
  have h1 : linesOf (renderImportList m) = m.words := by
    apply linesOf_of_unterminated _ _ (mnemonic_words_ne_nil m)
    exact splitNl_joinNl m.words (mnemonic_words_not_nil m) (mnemonic_no_newline m)
  refine ⟨h1, by rw [h1, m.words_count], ?_⟩
  rw [h1]
  intro hmem
  exact (mnemonic_words_ne_nil m _ hmem) rfl

/-- Witness for claim C1 at a concrete mnemonic. -/
theorem import_list_lines_check : "" ∉ linesOf (renderImportList M0) :=
  (import_list_lines M0).2.2

/-- Claim C9: for every 24-word mnemonic the import list has exactly 23
newline characters and no trailing newline, while the simple word list
has 24 newline characters and every line of it, the last included, is
terminated by a newline. -/
theorem newline_structure (m : Mnemonic) :
    (renderImportList m).data.count '\n' = 23
      ∧ (renderImportList m).data.getLast? ≠ some '\n'
      ∧ (create_simple_word_list m).data.count '\n' = 24
      ∧ (create_simple_word_list m).data.getLast? = some '\n' := by
  refine ⟨?_, ?_, ?_, ?_⟩
  · rw [show renderImportList m = joinNl m.words from rfl,
      joinNl_count m.words (mnemonic_words_not_nil m) (mnemonic_no_newline m), m.words_count]
  · obtain ⟨c, hc, hca⟩ := joinNl_last m.words (mnemonic_words_not_nil m) m.words_alpha
    rw [show renderImportList m = joinNl m.words from rfl, hc]
    intro e
    have hcn : c = '\n' := Option.some.inj e
    rw [hcn] at hca
    exact absurd hca (by decide)
  · rw [show create_simple_word_list m = simpleListLoop m.words 0 from rfl,
      simpleListLoop_count m.words 0 (mnemonic_no_newline m), m.words_count]
  · exact simpleListLoop_last m.words 0 (mnemonic_words_not_nil m)

/-- Witness for claim C9 at a concrete mnemonic. -/
theorem newline_structure_check : (renderImportList M0).data.count '\n' = 23 :=
  (newline_structure M0).1

/-! Facts about the seed-word grid. -/

theorem gridLoop_rows :
    ∀ (ws : List String) (i : Nat), i % 4 = 0 →
      gridLoop ws i ++ (if ws.length % 4 ≠ 0 then "\n" else "") = gridRowsAux ws i
  | [], i, _ => by
    apply str_ext
    simp [gridLoop, gridRowsAux, data_append, data_empty]
  | [a], i, h => by
    have h1 : (i + 1) % 4 = 1 := by omega
    apply str_ext
    simp [gridLoop, gridRowsAux, data_append, data_empty, h1]
  | [a, b], i, h => by
    have h1 : (i + 1) % 4 = 1 := by omega
    have h2 : (i + 2) % 4 = 2 := by omega
    apply str_ext
    simp [gridLoop, gridRowsAux, data_append, data_empty, h1, h2]
  | [a, b, c], i, h => by
    have h1 : (i + 1) % 4 = 1 := by omega
    have h2 : (i + 2) % 4 = 2 := by omega
    have h3 : (i + 3) % 4 = 3 := by omega
    apply str_ext
    simp [gridLoop, gridRowsAux, data_append, data_empty, h1, h2, h3]
  | a :: b :: c :: d :: rest, i, h => by
    have h1 : (i + 1) % 4 = 1 := by omega
    have h2 : (i + 2) % 4 = 2 := by omega
    have h3 : (i + 3) % 4 = 3 := by omega
    have h4 : (i + 4) % 4 = 0 := by omega
    have ih := gridLoop_rows rest (i + 4) (by omega)
    have hcond : (if (a :: b :: c :: d :: rest : List String).length % 4 ≠ 0
        then ("\n" : String) else "") = (if rest.length % 4 ≠ 0 then "\n" else "") := by
      have hl : (a :: b :: c :: d :: rest : List String).length % 4 = rest.length % 4 := by
        simp [List.length_cons]
        omega
      rw [hl]
    rw [hcond]
    rw [show gridRowsAux (a :: b :: c :: d :: rest) i
        = gridCell (i + 1) a ++ "  " ++ gridCell (i + 2) b ++ "  "
          ++ gridCell (i + 3) c ++ "  " ++ gridCell (i + 4) d ++ "\n"
          ++ gridRowsAux rest (i + 4) from rfl]
    rw [← ih]
    apply str_ext
    simp [gridLoop, data_append, h1, h2, h3, h4, List.append_assoc]

theorem gridRowsAux_last :
    ∀ (ws : List String) (i : Nat), ws ≠ [] →
      (gridRowsAux ws i).data ≠ [] ∧ (gridRowsAux ws i).data.getLast? = some '\n'
  | [], _, h => absurd rfl h
  | [a], i, _ => by
    have hd : (gridRowsAux [a] i).data = (gridCell (i + 1) a ++ "  ").data ++ ['\n'] := rfl
    exact ⟨by rw [hd]; simp, by rw [hd, lastConcat]⟩
  | [a, b], i, _ => by
    have hd : (gridRowsAux [a, b] i).data
        = (gridCell (i + 1) a ++ "  " ++ gridCell (i + 2) b ++ "  ").data ++ ['\n'] := rfl
    exact ⟨by rw [hd]; simp, by rw [hd, lastConcat]⟩
  | [a, b, c], i, _ => by
    have hd : (gridRowsAux [a, b, c] i).data
        = (gridCell (i + 1) a ++ "  " ++ gridCell (i + 2) b ++ "  "
           ++ gridCell (i + 3) c ++ "  ").data ++ ['\n'] := rfl
    exact ⟨by rw [hd]; simp, by rw [hd, lastConcat]⟩
  | a :: b :: c :: d :: rest, i, _ => by
    have hd : (gridRowsAux (a :: b :: c :: d :: rest) i).data
        = (gridCell (i + 1) a ++ "  " ++ gridCell (i + 2) b ++ "  "
           ++ gridCell (i + 3) c ++ "  " ++ gridCell (i + 4) d).data
          ++ '\n' :: (gridRowsAux rest (i + 4)).data := by
      rw [show gridRowsAux (a :: b :: c :: d :: rest) i
          = gridCell (i + 1) a ++ "  " ++ gridCell (i + 2) b ++ "  "
            ++ gridCell (i + 3) c ++ "  " ++ gridCell (i + 4) d ++ "\n"
            ++ gridRowsAux rest (i + 4) from rfl]
      simp [data_append, List.append_assoc]
    by_cases hr : rest = []
    · subst hr
      constructor
      · rw [hd]
        simp
      · rw [hd, show gridRowsAux ([] : List String) (i + 4) = "" from rfl, data_empty,
          show ('\n' :: ([] : List Char)) = ['\n'] from rfl, lastConcat]
    · obtain ⟨hne, hlast⟩ := gridRowsAux_last rest (i + 4) hr
      cases haux : (gridRowsAux rest (i + 4)).data with
      | nil => exact absurd haux hne
      | cons x xs =>
        constructor
        · rw [hd]
          simp
        · rw [hd, haux, lastOfAppend _ _ (by simp), List.getLast?_cons_cons]
          rw [haux] at hlast
          exact hlast

/-- Claim C3: for every word list of any length, the seed-word grid
section renders the words in rows of four cells, each cell the 1-based
index right aligned to two digits, a period and a space, and the word
left aligned to width twelve; a line break follows every fourth word, and
the final line is terminated by a line break even when the word count is
not a multiple of four. -/
theorem grid_section_rows (words : List String) :
    gridSection words = gridRows words
      ∧ (words = [] ∨ (gridSection words).data.getLast? = some '\n') := by
  have he : gridSection words = gridRows words := by
    rw [show gridSection words
        = gridLoop words 0 ++ (if words.length % 4 ≠ 0 then "\n" else "") from rfl,
      show gridRows words = gridRowsAux words 0 from rfl]
    exact gridLoop_rows words 0 rfl
  refine ⟨he, ?_⟩
  cases words with
  | nil => exact Or.inl rfl
  | cons a ws =>
    right
    rw [he, show gridRows (a :: ws) = gridRowsAux (a :: ws) 0 from rfl]
    exact (gridRowsAux_last (a :: ws) 0 (by simp)).2

/-! Facts about the fingerprint rendering. -/

theorem hex8_length (n : Nat) : (hex8 n).length = 8 := rfl

theorem hex8_chars (n : Nat) : ∀ c ∈ (hex8 n).data, isLowerHexDigit c = true := by
  intro c hc
  have hc' : c ∈ [nibbleChar (n / 268435456 % 16), nibbleChar (n / 16777216 % 16),
      nibbleChar (n / 1048576 % 16), nibbleChar (n / 65536 % 16), nibbleChar (n / 4096 % 16),
      nibbleChar (n / 256 % 16), nibbleChar (n / 16 % 16), nibbleChar (n % 16)] := hc
  simp only [List.mem_cons, List.not_mem_nil, or_false] at hc'
  rcases hc' with rfl | rfl | rfl | rfl | rfl | rfl | rfl | rfl <;> exact nibbleChar_lowerHex _

theorem hex8_bytes (b0 b1 b2 b3 : Nat)
    (h0 : b0 < 256) (h1 : b1 < 256) (h2 : b2 < 256) (h3 : b3 < 256) :
    hex8 (b0 * 16777216 + b1 * 65536 + b2 * 256 + b3)
      = hexByte b0 ++ hexByte b1 ++ hexByte b2 ++ hexByte b3 := by
  have e1 : (b0 * 16777216 + b1 * 65536 + b2 * 256 + b3) / 268435456 % 16 = b0 / 16 := by omega
  have e2 : (b0 * 16777216 + b1 * 65536 + b2 * 256 + b3) / 16777216 % 16 = b0 % 16 := by omega
  have e3 : (b0 * 16777216 + b1 * 65536 + b2 * 256 + b3) / 1048576 % 16 = b1 / 16 := by omega
  have e4 : (b0 * 16777216 + b1 * 65536 + b2 * 256 + b3) / 65536 % 16 = b1 % 16 := by omega
  have e5 : (b0 * 16777216 + b1 * 65536 + b2 * 256 + b3) / 4096 % 16 = b2 / 16 := by omega
  have e6 : (b0 * 16777216 + b1 * 65536 + b2 * 256 + b3) / 256 % 16 = b2 % 16 := by omega
  have e7 : (b0 * 16777216 + b1 * 65536 + b2 * 256 + b3) / 16 % 16 = b3 / 16 := by omega
  have e8 : (b0 * 16777216 + b1 * 65536 + b2 * 256 + b3) % 16 = b3 % 16 := by omega
  apply str_ext
  simp only [hex8, hexByte, data_append]
  rw [e1, e2, e3, e4, e5, e6, e7, e8]
  rfl

/-- Claim C2: the hardware-wallet fingerprint string is exactly 8
lowercase hexadecimal characters, equal to the key's four
public-identity fingerprint bytes rendered most significant byte first,
and a deterministic function of the master key. -/
theorem hw_fingerprint_format (key : Xpriv) :
    (get_hardware_wallet_fingerprint key).length = 8
      ∧ (∀ c ∈ (get_hardware_wallet_fingerprint key).data, isLowerHexDigit c = true)
      ∧ get_hardware_wallet_fingerprint key
          = hexByte ((fingerprint key).getD 0 0) ++ hexByte ((fingerprint key).getD 1 0)
            ++ hexByte ((fingerprint key).getD 2 0) ++ hexByte ((fingerprint key).getD 3 0)
      ∧ get_hardware_wallet_fingerprint key = get_hardware_wallet_fingerprint key := by
  refine ⟨rfl, ?_, ?_, rfl⟩
  · intro c hc
    exact hex8_chars _ c hc
  · have g0 : (fingerprint key).getD 0 0 = xprivIdentityHash key / 16777216 % 256 := rfl
    have g1 : (fingerprint key).getD 1 0 = xprivIdentityHash key / 65536 % 256 := rfl
    have g2 : (fingerprint key).getD 2 0 = xprivIdentityHash key / 256 % 256 := rfl
    have g3 : (fingerprint key).getD 3 0 = xprivIdentityHash key % 256 := rfl
    show hex8 ((fingerprint key).getD 0 0 * 16777216 + (fingerprint key).getD 1 0 * 65536
        + (fingerprint key).getD 2 0 * 256 + (fingerprint key).getD 3 0) = _
    rw [g0, g1, g2, g3]
    exact hex8_bytes _ _ _ _ (Nat.mod_lt _ (by omega)) (Nat.mod_lt _ (by omega))
      (Nat.mod_lt _ (by omega)) (Nat.mod_lt _ (by omega))

/-- Witness for claim C2 at a concrete master key. -/
theorem hw_fingerprint_format_check : (get_hardware_wallet_fingerprint K0).length = 8 :=
  (hw_fingerprint_format K0).1

/-! Occurrence machinery for the printable report. -/

theorem occursIn_left {sub m : List Char} (n : List Char) (h : occursIn sub m) :
    occursIn sub (m ++ n) := by
  obtain ⟨s, t, rfl⟩ := h
  exact ⟨s, t ++ n, by simp [List.append_assoc]⟩

theorem occursIn_right {sub n : List Char} (m : List Char) (h : occursIn sub n) :
    occursIn sub (m ++ n) := by
  obtain ⟨s, t, rfl⟩ := h
  exact ⟨m ++ s, t, by simp [List.append_assoc]⟩

theorem occursIn_refl (sub : List Char) : occursIn sub sub := ⟨[], [], by simp⟩

theorem occursIn_word_loop :
    ∀ (ws : List String) (i : Nat) (w : String), w ∈ ws →
      occursIn w.data (simpleListLoop ws i).data
  | [], _, _, h => absurd h (by simp)
  | a :: ws, i, w, h => by
    rcases List.mem_cons.mp h with rfl | hm
    · rw [show (simpleListLoop (w :: ws) i).data
          = (((fmtNum2 (i + 1) ++ ". ").data ++ w.data) ++ ("\n" : String).data)
            ++ (simpleListLoop ws (i + 1)).data from rfl]
      apply occursIn_left
      apply occursIn_left
      exact occursIn_right _ (occursIn_refl w.data)
    · rw [show (simpleListLoop (a :: ws) i).data
          = (fmtNum2 (i + 1) ++ ". " ++ a ++ "\n").data
            ++ (simpleListLoop ws (i + 1)).data from rfl]
      exact occursIn_right _ (occursIn_word_loop ws (i + 1) w hm)

theorem header_contains :
    occursIn ("BITCOIN SEED PHRASE - METAL PLATE BACKUP").data printHeader.data := by
  simp only [printHeader, data_append]
  iterate 2 apply occursIn_left
  apply occursIn_right
  exact ⟨("           ").data, ("\n").data, by rfl⟩

theorem warning_contains : occursIn ("SECURITY WARNING").data printWarning.data := by
  simp only [printWarning, data_append]
  iterate 6 apply occursIn_left
  exact ⟨("⚠️  ").data, (" ⚠️\n").data, by rfl⟩

theorem seedhead_contains : occursIn ("SEED WORDS").data printSeedWordsHeader.data := by
  simp only [printSeedWordsHeader, data_append]
  iterate 2 apply occursIn_left
  exact ⟨[], (" (Punch these in order):\n").data, by rfl⟩

theorem checklist_contains : occursIn ("VERIFICATION CHECKLIST").data printChecklist.data := by
  simp only [printChecklist, data_append]
  iterate 8 apply occursIn_left
  apply occursIn_right
  exact ⟨[], (":\n").data, by rfl⟩

theorem instructions_contains :
    occursIn ("HARDWARE WALLET IMPORT INSTRUCTIONS").data printInstructionsA.data := by
  simp only [printInstructionsA, data_append]
  iterate 8 apply occursIn_left
  exact ⟨[], (":\n").data, by rfl⟩

/-- Claim C5: the printable report contains the supplied label verbatim,
the fingerprint verbatim, every mnemonic word verbatim, and the five
fixed section headers: the title banner, SECURITY WARNING, SEED WORDS,
VERIFICATION CHECKLIST and HARDWARE WALLET IMPORT INSTRUCTIONS. -/
theorem printable_report_contains (m : Mnemonic) (fp label ts : String) :
    occursIn label.data (create_printable_output m fp label ts).data
      ∧ occursIn fp.data (create_printable_output m fp label ts).data
      ∧ (∀ w ∈ m.words, occursIn w.data (create_printable_output m fp label ts).data)
      ∧ occursIn ("BITCOIN SEED PHRASE - METAL PLATE BACKUP").data
          (create_printable_output m fp label ts).data
      ∧ occursIn ("SECURITY WARNING").data (create_printable_output m fp label ts).data
      ∧ occursIn ("SEED WORDS").data (create_printable_output m fp label ts).data
      ∧ occursIn ("VERIFICATION CHECKLIST").data (create_printable_output m fp label ts).data
      ∧ occursIn ("HARDWARE WALLET IMPORT INSTRUCTIONS").data
          (create_printable_output m fp label ts).data := by
  refine ⟨?_, ?_, ?_, ?_, ?_, ?_, ?_, ?_⟩
  · simp only [create_printable_output, data_append]
    iterate 15 apply occursIn_left
    apply occursIn_right
    apply occursIn_left
    apply occursIn_right
    exact occursIn_refl _
  · simp only [create_printable_output, data_append]
    iterate 13 apply occursIn_left
    apply occursIn_right
    apply occursIn_left
    apply occursIn_right
    exact occursIn_refl _
  · intro w hw
    simp only [create_printable_output, data_append]
    iterate 5 apply occursIn_left
    apply occursIn_right
    exact occursIn_word_loop m.words 0 w hw
  · simp only [create_printable_output, data_append]
    iterate 16 apply occursIn_left
    exact header_contains
  · simp only [create_printable_output, data_append]
    iterate 10 apply occursIn_left
    apply occursIn_right
    exact warning_contains
  · simp only [create_printable_output, data_append]
    iterate 9 apply occursIn_left
    apply occursIn_right
    exact seedhead_contains
  · simp only [create_printable_output, data_append]
    iterate 7 apply occursIn_left
    apply occursIn_right
    exact checklist_contains
  · simp only [create_printable_output, data_append]
    iterate 3 apply occursIn_left
    apply occursIn_right
    exact instructions_contains

/-- Witness for claim C5 at a concrete mnemonic, fingerprint and label. -/
theorem printable_report_contains_check :
    occursIn ("SECURITY WARNING").data
      (create_printable_output M0 ("deadbeef") ("My Wallet") ("2026-01-01 00:00:00")).data :=
  (printable_report_contains M0 ("deadbeef") ("My Wallet") ("2026-01-01 00:00:00")).2.2.2.2.1

/-! The pipeline claims. -/

/-- Claim C6: for every 32-byte entropy buffer the mnemonic-encoding step
of generate_mnemonic succeeds; its error branch is unreachable for
well-formed 256-bit input. -/
theorem encoding_succeeds (entropy : List Nat) (h : entropy.length = 32) :
    exceptIsOk (generate_mnemonic entropy) = true := by
  rw [show generate_mnemonic entropy = fromEntropy entropy from rfl]
  unfold fromEntropy
  rw [if_pos h]
  rfl

/-- Witness for claim C6 at a concrete all-zero entropy buffer. -/
theorem encoding_succeeds_check :
    (List.replicate 32 (0 : Nat)).length = 32
      ∧ exceptIsOk (generate_mnemonic (List.replicate 32 (0 : Nat))) = true :=
  ⟨by decide, encoding_succeeds (List.replicate 32 (0 : Nat)) (by decide)⟩

/-- Claim C7: seed derivation and master-key derivation are
deterministic; repeated calls on the same mnemonic and passphrase give
the same 64-byte seed, and repeated calls on the same seed under the
Bitcoin network give byte-identical master keys. -/
theorem derivation_deterministic (m : Mnemonic) (p : String) (s : List Nat) :
    generate_seed m p = generate_seed m p
      ∧ (generate_seed m p).length = 64
      ∧ derive_master_key s Network.bitcoin = derive_master_key s Network.bitcoin := by
  refine ⟨rfl, ?_, rfl⟩
  rw [show generate_seed m p = to_seed m p from rfl]
  unfold to_seed
  rw [List.length_map, List.length_range]

/-- Claim C8: in every orchestrated run the seed is derived from the
run's mnemonic with the empty passphrase. -/
theorem pipeline_empty_passphrase (entropy : List Nat) (labelArg : Option String)
    (ts : String) : seedUsesEmptyPassphrase (mainRun entropy labelArg ts) := by
  unfold mainRun
  split
  · exact trivial
  · split
    · exact trivial
    · exact rfl

/-- Claim C10: the simple word list and the import list depend only on
the mnemonic; runs over the same mnemonic with different fingerprints,
labels and timestamps produce identical simple-list and import-list
artifacts. -/
theorem artifacts_ignore_label_fingerprint (m : Mnemonic)
    (fp1 l1 ts1 fp2 l2 ts2 : String) :
    (writeArtifacts m fp1 l1 ts1).2.1 = (writeArtifacts m fp2 l2 ts2).2.1
      ∧ (writeArtifacts m fp1 l1 ts1).2.2 = (writeArtifacts m fp2 l2 ts2).2.2 :=
  ⟨rfl, rfl⟩

end BitcoinKeygen
